import Mathlib

/-!
Verification development for the IPTV playlist toolkit (three Python scripts:
`m3u_merger.py`, `m3u_mergerng.py`, `url_sorter.py`).  The scripts are shallowly
embedded: Python strings are Lean `String`s (a wrapper around `List Char`), the
handful of regular expressions the scripts use are translated into explicit
scanning functions with the same semantics, Python `set`s of strings are lists
managed with an add-if-absent discipline (only set-level facts — membership and
duplicate-freeness — are ever relied upon, since Python set iteration order is
implementation defined), and Python `dict`s (which preserve insertion order) are
association lists updated in place.
-/

set_option maxHeartbeats 1000000

namespace IptvSpec

/-! ## Python string primitives -/

/-- Characters removed by Python `str.strip()` with no argument. -/
def pyIsSpace (c : Char) : Bool :=
  c = ' ' || c = '\t' || c = '\n' || c = '\r' || c = '\x0b' || c = '\x0c'

def dropLeadSpace : List Char → List Char
  | [] => []
  | c :: cs => if pyIsSpace c then dropLeadSpace cs else c :: cs

/-- Python `str.strip()` on a character list: drop leading and trailing whitespace. -/
def pyStripCs (cs : List Char) : List Char :=
  ((dropLeadSpace ((dropLeadSpace cs).reverse)).reverse)

/-- Python `str.strip()`. -/
def pyStrip (s : String) : String := ⟨pyStripCs s.data⟩

/-- Character-list test used for Python `str.startswith`. -/
def hasPre : List Char → List Char → Bool
  | [], _ => true
  | _ :: _, [] => false
  | p :: ps, c :: cs => p = c && hasPre ps cs

/-- Python `line.startswith(p)`. -/
def pyStarts (p line : String) : Bool := hasPre p.data line.data

/-- Contiguous-substring test on character lists. -/
def hasSub (pat : List Char) : List Char → Bool
  | [] => match pat with | [] => true | _ => false
  | c :: cs => hasPre pat (c :: cs) || hasSub pat cs

/-- Python `pat in s` (contiguous substring). -/
def pyIn (pat s : String) : Bool := hasSub pat.data s.data

/-- Python `str.lower()`.  Python lower-cases per character; `Char.toLower`
agrees on the ASCII letters appearing in this repository and leaves CJK
characters unchanged, as Python does. -/
def pyLower (s : String) : String := ⟨s.data.map Char.toLower⟩

/-- Python `str.upper()` (same per-character caveat as `pyLower`). -/
def pyUpper (s : String) : String := ⟨s.data.map Char.toUpper⟩

/-- Semantics of `re.search(r',(.+)$', line)`: the text after the first comma,
provided it is non-empty (`.+` needs at least one character; if the first comma
is the last character no later comma can exist, so the search fails). -/
def afterFirstComma : List Char → Option (List Char)
  | [] => none
  | c :: cs => if c = ',' then (if cs = [] then none else some cs) else afterFirstComma cs

/-- Embedding of `m3u_merger.py` channel-name extraction: `re.search(r',(.+)$', line)` then
`.group(1).strip()`, or `None` when the regex does not match. -/
def extractNameFirst (line : String) : Option String :=
  (afterFirstComma line.data).map (fun cs => (⟨pyStripCs cs⟩ : String))

/-- Scan a reversed character list up to the first comma, returning the scanned
segment (which is the text after the last comma of the original, reversed). -/
def revSegTilComma : List Char → Option (List Char)
  | [] => none
  | c :: cs => if c = ',' then some [] else (revSegTilComma cs).map (c :: ·)

/-- Semantics of `re.search(r',([^,]+)$', line)` in `m3u_mergerng.py`: the text
after the last comma, provided it is non-empty, then `.strip()`. -/
def extractNameLast (line : String) : Option String :=
  match revSegTilComma line.data.reverse with
  | some [] => none
  | some seg => some (⟨pyStripCs seg.reverse⟩ : String)
  | none => none

/-- Capture characters up to (excluding) the closing delimiter `q`; `none` when
`q` never occurs (the regex character class `[^q]*` followed by `q` fails). -/
def takeTilQuote (q : Char) : List Char → Option (List Char)
  | [] => none
  | c :: cs => if c = q then some [] else (takeTilQuote q cs).map (c :: ·)

/-- Semantics of `re.search(pat + open-quote + captured + close-quote, s)`:
find the first occurrence of the literal `pat` that is followed by a properly
closed capture, returning the capture. -/
def findAttr (pat : List Char) (q : Char) : List Char → Option (List Char)
  | [] => none
  | c :: cs =>
      if hasPre pat (c :: cs) then
        match takeTilQuote q ((c :: cs).drop pat.length) with
        | some cap => some cap
        | none => findAttr pat q cs
      else findAttr pat q cs

def gtDq : String := "group-title=\""

def gtSq : String := "group-title='"

/-- Embedding of `m3u_merger.extract_group_title`: first `group-title="..."` capture,
stripped; empty string when absent. -/
def extract_group_title (line : String) : String :=
  match findAttr gtDq.data '"' line.data with
  | some cap => (⟨pyStripCs cap⟩ : String)
  | none => ""

/-! ## `m3u_merger.py`: single-document parser (`parse_single_m3u`) -/

structure ChannelData where
  info : String
  urls : List String
  configs : List String
deriving DecidableEq

abbrev MKey := String × String

section Assoc

variable {κ β : Type} [DecidableEq κ]

/-- Ordered association-list lookup (Python `dict` access). -/
def lookupA : List (κ × β) → κ → Option β
  | [], _ => none
  | (k', v) :: t, k => if k' = k then some v else lookupA t k

/-- Replace the value stored at `k`, keeping the position (in-place `dict` write). -/
def updateA : List (κ × β) → κ → β → List (κ × β)
  | [], _, _ => []
  | (k', v') :: t, k, v => if k' = k then (k', v) :: t else (k', v') :: updateA t k v

/-- Apply `f` to the value stored at `k`, keeping the position. -/
def modifyA : List (κ × β) → κ → (β → β) → List (κ × β)
  | [], _, _ => []
  | (k', v') :: t, k, f => if k' = k then (k', f v') :: t else (k', v') :: modifyA t k f

end Assoc

/-- Python truthiness of an optional string (`None` and `""` are falsy). -/
def pyTruthyOS : Option String → Bool
  | none => false
  | some s => if s = "" then false else true

/-- Python `set.add` on the list model: append when absent. -/
def addUrl (us : List String) (u : String) : List String :=
  if u ∈ us then us else us ++ [u]

/-- Parser state of `parse_single_m3u`: accumulated header / map / order plus
the channel under construction. -/
structure MParseSt where
  header : String
  map : List (MKey × ChannelData)
  order : List MKey
  curInfo : Option String
  curName : Option String
  curGroup : Option String
  curConfigs : List String
deriving DecidableEq

def mInit : MParseSt := ⟨"", [], [], none, none, none, []⟩

/-- Flush the channel under construction (`parse_single_m3u` lines 45-58 and
93-105): guarded by Python truthiness of the buffered info line and name.
When the info line is set the group is always set too (they are assigned
together), so the `getD ""` defaults are never exercised on reachable states. -/
def mFlush (st : MParseSt) : MParseSt :=
  if pyTruthyOS st.curInfo && pyTruthyOS st.curName then
    let key : MKey := (st.curName.getD "", st.curGroup.getD "")
    match lookupA st.map key with
    | none =>
        { st with map := st.map ++ [(key, ⟨st.curInfo.getD "", [], st.curConfigs⟩)],
                  order := st.order ++ [key] }
    | some cd =>
        { st with map := updateA st.map key
                    ({ cd with info := st.curInfo.getD "",
                               configs := cd.configs ++ st.curConfigs }) }
  else st

/-- One loop iteration of `parse_single_m3u` on a (stripped, non-empty) line. -/
def mStep (st : MParseSt) (line : String) : MParseSt :=
  if pyStarts "#EXTM3U" line = true then
    if st.header = "" then { st with header := line } else st
  else if pyStarts "#EXTINF:" line = true then
    let st' := mFlush st
    { st' with curInfo := some line,
               curName := extractNameFirst line,
               curGroup := some (extract_group_title line),
               curConfigs := [] }
  else if pyStarts "#" line = true then
    { st with curConfigs := st.curConfigs ++ [line] }
  else if (pyStarts "http://" line || pyStarts "https://" line) = true then
    if pyTruthyOS st.curName && st.curGroup.isSome then
      let key : MKey := (st.curName.getD "", st.curGroup.getD "")
      match lookupA st.map key with
      | none =>
          { st with
              map := modifyA (st.map ++ [(key, ⟨st.curInfo.getD "", [], st.curConfigs⟩)]) key
                       (fun cd => { cd with urls := addUrl cd.urls line }),
              order := st.order ++ [key] }
      | some _ =>
          { st with map := modifyA st.map key
                      (fun cd => { cd with urls := addUrl cd.urls line }) }
    else st
  else st

/-- Run the `parse_single_m3u` loop over already stripped, non-blank lines,
then flush the final channel. -/
def mRun (lines : List String) : MParseSt :=
  mFlush (lines.foldl mStep mInit)

/-- Split a character list at newline characters. -/
def splitNl : List Char → List (List Char)
  | [] => [[]]
  | c :: cs =>
      if c = '\n' then [] :: splitNl cs
      else match splitNl cs with
        | h :: t => (c :: h) :: t
        | [] => [[c]]

/-- The list preprocessing of `parse_single_m3u`:
`[line.strip() for line in m3u_content.strip().split('\n') if line.strip()]`. -/
def prepLines (content : String) : List String :=
  ((splitNl (pyStripCs content.data)).map
    (fun cs => (⟨pyStripCs cs⟩ : String))).filter (fun s => s ≠ "")

/-- Embedding of `parse_single_m3u` on raw document text (empty input short-circuits). -/
def parse_single_m3u (content : String) : MParseSt :=
  if content = "" then mInit else mRun (prepLines content)

/-! ## `m3u_merger.py`: cross-document merge (`main`, lines 245-294)

A parsed document enters the merge as the pair (order list, channel map); the
loop iterates the order list and reads the map at each key, so the pair is
modelled as the ordered association list of (key, data) in encounter order. -/

/-- One (key, data) item of a parsed document. -/
abbrev MItem := MKey × ChannelData

/-- Per-group merge state: `{"channels": {...}, "order_list": [...]}`. -/
structure GroupData where
  channels : List (String × ChannelData)
  order : List String
deriving DecidableEq

/-- Global merge state: `final_channels_data` plus `group_global_order`. -/
structure MergeSt where
  groups : List (String × GroupData)
  groupOrder : List String
deriving DecidableEq

def emptyGD : GroupData := ⟨[], []⟩

/-- Python `existing.update(incoming)` on the list model of a string set: add
each incoming element that is absent.  Iteration order of a Python set is
implementation defined; every theorem below uses only membership facts about
the result. -/
def urlsUnion (a b : List String) : List String := b.foldl addUrl a

/-- Python `list(set(l))`: the duplicate-free list of `l`'s elements.  The
iteration order of a Python set is implementation defined (hash order); this
model keeps first occurrences, and every theorem below uses only membership
and duplicate-freeness of the result, which hold for any iteration order. -/
def pySetList (l : List String) : List String :=
  l.foldl (fun acc x => if x ∈ acc then acc else acc ++ [x]) []

/-- Python `list.insert(n, a)` for `n ≥ 0`: insert before position `n`,
append when `n` is past the end. -/
def insertAt {α : Type} : Nat → α → List α → List α
  | _, a, [] => [a]
  | 0, a, l => a :: l
  | n + 1, a, x :: xs => x :: insertAt n a xs

/-- Python `list.index` wrapped in `try/except` : the index of the first
occurrence, `none` when absent. -/
def pyIndexOf {α : Type} [DecidableEq α] (a : α) : List α → Option Nat
  | [] => none
  | x :: xs => if x = a then some 0 else (pyIndexOf a xs).map (· + 1)

/-- The body of the per-group channel loop (`main` lines 265-294): merge an
already-known channel (overwrite info, union urls, set-dedup configs, move the
cursor to the channel's current position) or insert a new channel right after
the cursor.  The cursor starts at `-1` and the insertion index `last + 1` is
therefore never negative on reachable states. -/
def processItem (gd : GroupData) (last : Int) (it : MItem) : GroupData × Int :=
  let name := it.1.1
  let d := it.2
  match lookupA gd.channels name with
  | some e =>
      let e' : ChannelData := ⟨d.info, urlsUnion e.urls d.urls, pySetList (e.configs ++ d.configs)⟩
      let last' : Int :=
        match pyIndexOf name gd.order with
        | some i => (i : Int)
        | none => last
      (⟨updateA gd.channels name e', gd.order⟩, last')
  | none =>
      let idx : Int := last + 1
      (⟨gd.channels ++ [(name, d)], insertAt idx.toNat name gd.order⟩, idx)

/-- Fold `processItem` over a group's items, threading the cursor. -/
def processItems (gd : GroupData) (last : Int) : List MItem → GroupData × Int
  | [] => (gd, last)
  | it :: its => processItems (processItem gd last it).1 (processItem gd last it).2 its

/-- Append an item to its group's bucket, creating the bucket at the end on
first sight (`current_groups` construction, `main` lines 245-252; Python dicts
preserve insertion order). -/
def addToBucket (g : String) (it : MItem) : List (String × List MItem) → List (String × List MItem)
  | [] => [(g, [it])]
  | (g', l) :: bs => if g' = g then (g', l ++ [it]) :: bs else (g', l) :: addToBucket g it bs

/-- Group a document's items by group title, in encounter order. -/
def buildBuckets (items : List MItem) : List (String × List MItem) :=
  items.foldl (fun bs it => addToBucket it.1.2 it bs) []

/-- Merge one group bucket into the global state (`main` lines 254-294): fetch
or create the group's data (recording the group in the global order on
creation), then run the channel loop with the cursor starting at `-1`. -/
def processBucket (st : MergeSt) (g : String) (items : List MItem) : MergeSt :=
  match lookupA st.groups g with
  | some gd => ⟨updateA st.groups g (processItems gd (-1) items).1, st.groupOrder⟩
  | none => ⟨st.groups ++ [(g, (processItems emptyGD (-1) items).1)], st.groupOrder ++ [g]⟩

def foldBuckets (st : MergeSt) : List (String × List MItem) → MergeSt
  | [] => st
  | b :: bs => foldBuckets (processBucket st b.1 b.2) bs

/-- Merge one parsed document into the global state. -/
def mergeDoc (st : MergeSt) (items : List MItem) : MergeSt :=
  foldBuckets st (buildBuckets items)

/-- Merge a sequence of parsed documents starting from the empty state. -/
def mergeDocs (docs : List (List MItem)) : MergeSt :=
  docs.foldl mergeDoc ⟨[], []⟩

/-- View a parser result as the ordered item list consumed by the merge. -/
def docItemsOf (st : MParseSt) : List MItem :=
  st.order.map (fun k => (k, (lookupA st.map k).getD ⟨"", [], []⟩))

/-- Observation: the resource list of channel `n` in a group, if present. -/
def urlsGd (gd : GroupData) (n : String) : Option (List String) :=
  (lookupA gd.channels n).map (fun e => e.urls)

/-- Observation: the resource list of channel `n` of group `g` in the global
merge state, if present. -/
def urlsSt (st : MergeSt) (g n : String) : Option (List String) :=
  match lookupA st.groups g with
  | some gd => urlsGd gd n
  | none => none

/-- Every item of a bucket already has an entry in the group whose resource
list contains all of the item's resources (the situation after a bucket has
been merged once). -/
def bucketCovered (gd : GroupData) (items : List MItem) : Prop :=
  ∀ it ∈ items, ∃ e, lookupA gd.channels it.1.1 = some e ∧ ∀ u ∈ it.2.urls, u ∈ e.urls

/-! ## `url_sorter.py`: attribute patching helpers -/

def tvgDq : String := "tvg-name=\""

def tvgSq : String := "tvg-name='"

/-- Semantics of `re.sub(pat + open-quote + "[^q]*" + close-quote, rep, s)`:
replace every properly closed occurrence, scanning left to right without
overlap.  The first argument is fuel (initialised to the list length, which
suffices since every step consumes at least one character). -/
def subAttrAux (pat : List Char) (q : Char) (rep : List Char) : Nat → List Char → List Char
  | _, [] => []
  | 0, cs => cs
  | n + 1, c :: cs =>
      if hasPre pat (c :: cs) then
        match takeTilQuote q ((c :: cs).drop pat.length) with
        | some cap =>
            rep ++ subAttrAux pat q rep n (((c :: cs).drop pat.length).drop (cap.length + 1))
        | none => c :: subAttrAux pat q rep n cs
      else c :: subAttrAux pat q rep n cs

def subAttr (pat : String) (q : Char) (rep : String) (s : String) : String :=
  ⟨subAttrAux pat.data q rep.data s.data.length s.data⟩

/-- Embedding of `url_sorter.parse_extinf_group`: double-quoted `group-title` capture,
falling back to the single-quoted form, else `None`. -/
def parse_extinf_group (line : String) : Option String :=
  match findAttr gtDq.data '"' line.data with
  | some cap => some (⟨cap⟩ : String)
  | none =>
      match findAttr gtSq.data '\'' line.data with
      | some cap => some (⟨cap⟩ : String)
      | none => none

/-- Python `s.rsplit(',', 1)` when `s` contains a comma: the parts before and
after the last comma. -/
def rsplitLastComma (cs : List Char) : Option (List Char × List Char) :=
  match revSegTilComma cs.reverse with
  | none => none
  | some seg => some (cs.take (cs.length - seg.length - 1), seg.reverse)

/-- Embedding of `url_sorter.update_extinf_group`.  In the single-quoted branch (source
lines 45-46) the function body reads the local `updated_line` before any
assignment to it, so Python raises `UnboundLocalError`; the embedding returns
`Except.error` there.  In the no-attribute branch the two arms of the
`attributes.endswith('"')` conditional are textually identical, so a single
arm models both. -/
def update_extinf_group (line newGroup : String) : Except Unit String :=
  if pyIn gtDq line = true then
    .ok (subAttr gtDq '"' (gtDq ++ newGroup ++ "\"") line)
  else if pyIn gtSq line = true then
    .error ()
  else if pyIn "," line = true then
    match rsplitLastComma line.data with
    | some (att, nm) =>
        .ok ⟨att ++ (" group-title=\"").data ++ newGroup.data ++ ("\",").data ++ nm⟩
    | none => .ok line
  else .ok line

/-- Embedding of `url_sorter.sort_m3u_urls.rename_inf`: rewrite the `tvg-name` attribute
(double- then single-quoted form) and replace the display name after the last
comma (append when no comma exists). -/
def rename_inf (inf name : String) : String :=
  let inf1 :=
    if pyIn tvgDq inf = true then subAttr tvgDq '"' (tvgDq ++ name ++ "\"") inf
    else if pyIn tvgSq inf = true then subAttr tvgSq '\'' (tvgSq ++ name ++ "'") inf
    else inf
  if pyIn "," inf1 = true then
    match rsplitLastComma inf1.data with
    | some (att, _) => ⟨att ++ (",").data ++ name.data⟩
    | none => ⟨inf1.data ++ (",").data ++ name.data⟩
  else ⟨inf1.data ++ (",").data ++ name.data⟩

/-! ## `url_sorter.py`: scoring and the transform engine -/

/-- Python truthiness of the optional keyword lists (`None` and `[]` falsy). -/
def optNonempty {α : Type} : Option (List α) → Bool
  | some (_ :: _) => true
  | _ => false

/-- The keyword loop of `get_url_sort_score`: return on the first
case-insensitive substring match, else fall through to `0`. -/
def scoreLoop (item : String) (rev : Bool) (total : Nat) : Nat → List String → Int
  | _, [] => 0
  | idx, kw :: rest =>
      if pyIn (pyLower kw) (pyLower item) = true then
        (if rev then (idx : Int) + 1 else (idx : Int) - (total : Int))
      else scoreLoop item rev total (idx + 1) rest

/-- Embedding of `url_sorter.sort_m3u_urls.get_url_sort_score` (source lines 204-214). -/
def get_url_sort_score (keywords : List String) (rev : Bool) (item : String) : Int :=
  if pyIn "://" item = true then scoreLoop item rev keywords.length 0 keywords
  else 9999

def gScoreLoop (chGroupLower : String) (total : Nat) : Nat → List String → Int
  | _, [] => 0
  | idx, gkw :: rest =>
      if pyIn (pyLower gkw) chGroupLower = true then (idx : Int) - (total : Int)
      else gScoreLoop chGroupLower total (idx + 1) rest

/-- One parsed channel of `url_sorter.parse_m3u_file` (a `channels_data`
element): metadata line, resource lines in parsed order, resolved group
(`None` when neither attribute nor `#EXTGRP` supplied one), raw `#EXTGRP`
line when present. -/
structure SChannel where
  inf : String
  urls : List String
  group : Option String
  extgrpLine : Option String
deriving DecidableEq

/-- Embedding of `get_group_sort_score`.  When the channel's group is `None`, Python's
`ch_group.lower()` raises `AttributeError`; the caller models that run-level
failure (see `sort_m3u_urls`), so the `getD ""` default is never exercised on
runs the theorems speak about. -/
def get_group_sort_score (groupNames : Option (List String)) (ch : SChannel) : Int :=
  if optNonempty groupNames then
    gScoreLoop (pyLower (ch.group.getD "")) (groupNames.getD []).length 0 (groupNames.getD [])
  else 0

/-- The configuration consumed by `sort_m3u_urls` after the CLI layer's
parsing: keyword lists already split and stripped; optional strings that
Python treats as falsy (`None` or `""`) are `none`. -/
structure SParams where
  keywords : List String
  reverseMode : Bool
  targetChannels : Option (List String)
  newName : Option String
  groupNames : Option (List String)
  renameGroup : Option String
  groupSort : Bool
deriving DecidableEq

/-- Definition `rename_mode = bool(new_name or rename_group)` (source line 191). -/
def renameModeOf (p : SParams) : Bool := p.newName.isSome || p.renameGroup.isSome

/-- Condition A (source line 268): display-name keyword match. -/
def nameMatchOf (p : SParams) (ch : SChannel) : Bool :=
  match p.targetChannels with
  | some tcs => tcs.any (fun tc => pyIn (pyLower tc) (pyLower ch.inf))
  | none => false

/-- Condition B (source line 271): any resource matches any keyword. -/
def urlMatchOf (p : SParams) (ch : SChannel) : Bool :=
  ch.urls.any (fun url => p.keywords.any (fun kw => pyIn (pyLower kw) (pyLower url)))

/-- Condition C (source line 274): group keyword match, `True` when the group
keyword list is falsy. -/
def groupMatchOf (p : SParams) (chGroup : String) : Bool :=
  if optNonempty p.groupNames then
    (p.groupNames.getD []).any (fun gn => pyIn (pyLower gn) (pyLower chGroup))
  else true

/-- The four-way rename-condition cascade (source lines 288-301 and 353-366,
which are identical). -/
def shouldRenameCases (p : SParams) (nameMatch urlMatch : Bool) : Bool :=
  let kwT := !p.keywords.isEmpty
  let tcT := optNonempty p.targetChannels
  if !kwT && !tcT then true
  else if kwT && !tcT && urlMatch then true
  else if !kwT && tcT && nameMatch then true
  else if kwT && tcT && nameMatch && urlMatch then true
  else false

/-- Stable ascending insertion by integer key: walk past strictly smaller
keys, so equal keys keep their original relative order. -/
def sortIns {α : Type} (key : α → Int) (a : α) : List α → List α
  | [] => [a]
  | b :: bs => if key b < key a then b :: sortIns key a bs else a :: b :: bs

/-- Python `sorted(l, key=key)` / `l.sort(key=key)`: a stable ascending sort
(Python's Timsort is stable; any stable sort produces the same list). -/
def pySortByKey {α : Type} (key : α → Int) (l : List α) : List α :=
  l.foldr (sortIns key) []

/-- The `#EXTGRP` emission block of the output loop (source lines 282-325):
emitted only when the channel's group is truthy and differs from
`last_group`; in rename mode with a target group name, a rewritten
`#EXTGRP:` line replaces the original when the rename conditions hold.  The
three source branches that emit the original line (lines 311-315, 316-320,
321-325) are identical up to skipped counters and are modelled once.
Returns the emitted lines (none or exactly one) and the updated
`last_group`. -/
def egBlock (p : SParams) (lastGroup : Option String) (ch : SChannel) :
    List String × Option String :=
  let chGroup := ch.group.getD ""
  let lastNe : Bool := match lastGroup with
    | none => true
    | some s => decide (chGroup ≠ s)
  if decide (chGroup ≠ "") && lastNe then
    if renameModeOf p && p.renameGroup.isSome && groupMatchOf p chGroup then
      if shouldRenameCases p (nameMatchOf p ch) (urlMatchOf p ch) then
        (["#EXTGRP:" ++ p.renameGroup.getD ""], some chGroup)
      else
        ((match ch.extgrpLine with | some l => [l] | none => []), some chGroup)
    else
      ((match ch.extgrpLine with | some l => [l] | none => []), some chGroup)
  else ([], lastGroup)

/-- The per-channel body of the output loop of `sort_m3u_urls` (source lines
263-413): returns the lines this channel contributes and the updated
`last_group` tracker.  Counter variables of the source (`rename_count`,
`sort_count`, `processed_groups`, ...) do not influence the emitted lines and
are omitted.  `Except.error` models the `AttributeError` Python raises when a
group keyword list is supplied and the channel's group is `None`, and the
`UnboundLocalError` of `update_extinf_group`. -/
def channelLines (p : SParams) (lastGroup : Option String) (ch : SChannel) :
    Except Unit (List String × Option String) :=
  if optNonempty p.groupNames && ch.group.isNone then .error ()
  else
    let chGroup := ch.group.getD ""
    let nameMatch := nameMatchOf p ch
    let urlMatch := urlMatchOf p ch
    let groupMatch := groupMatchOf p chGroup
    let rename := renameModeOf p
    let shouldProcess :=
      if optNonempty p.groupNames && !groupMatch then
        !p.groupSort || (p.groupSort && !rename)
      else true
    let egLines := (egBlock p lastGroup ch).1
    let lastGroup' := (egBlock p lastGroup ch).2
    if !shouldProcess then .ok (egLines ++ [ch.inf] ++ ch.urls, lastGroup')
    else if rename then
      let inf1 :=
        if p.newName.isSome && optNonempty p.targetChannels && !p.keywords.isEmpty
            && nameMatch && urlMatch then
          rename_inf ch.inf (p.newName.getD "")
        else ch.inf
      if p.renameGroup.isSome && groupMatch && pyTruthyOS (parse_extinf_group inf1) then
        if shouldRenameCases p nameMatch urlMatch then
          match update_extinf_group inf1 (p.renameGroup.getD "") with
          | .ok inf2 => .ok (egLines ++ [inf2] ++ ch.urls, lastGroup')
          | .error e => .error e
        else .ok (egLines ++ [inf1] ++ ch.urls, lastGroup')
      else .ok (egLines ++ [inf1] ++ ch.urls, lastGroup')
    else
      let shouldSortUrls :=
        if p.groupSort then groupMatch && decide (ch.urls.length > 1)
        else if optNonempty p.targetChannels then nameMatch && groupMatch
        else if optNonempty p.groupNames then groupMatch
        else true
      let outUrls :=
        if shouldSortUrls && decide (ch.urls.length > 1) then
          pySortByKey (get_url_sort_score p.keywords p.reverseMode) ch.urls
        else ch.urls
      .ok (egLines ++ outUrls ++ [ch.inf], lastGroup')

/-- Fold `channelLines` over the channel list, threading `last_group` and
concatenating the emitted lines (the source appends to one `output_lines`
accumulator, which produces the same sequence). -/
def sortCoreAux (p : SParams) : Option String → List SChannel → Except Unit (List String)
  | _, [] => .ok []
  | lg, ch :: rest =>
      match channelLines p lg ch with
      | .error e => .error e
      | .ok (ls, lg') =>
          match sortCoreAux p lg' rest with
          | .error e => .error e
          | .ok rls => .ok (ls ++ rls)

/-- The output-producing core of `url_sorter.sort_m3u_urls` (file I/O and the
returned counters excluded): emit the header lines, optionally reorder whole
channels by group score first (only outside rename mode, source lines
255-257), then run the per-channel loop.  `Except.error` models the uncaught
Python exceptions described at `channelLines`. -/
def sort_m3u_urls (p : SParams) (headerLines : List String)
    (channelsData : List SChannel) : Except Unit (List String) :=
  let rename := renameModeOf p
  if p.groupSort && optNonempty p.groupNames && !rename then
    if channelsData.any (fun ch => ch.group.isNone) then .error ()
    else
      match sortCoreAux p none (pySortByKey (get_group_sort_score p.groupNames) channelsData) with
      | .error e => .error e
      | .ok body => .ok (headerLines ++ body)
  else
    match sortCoreAux p none channelsData with
    | .error e => .error e
    | .ok body => .ok (headerLines ++ body)

/-- The output shape asserted by claim C4: the emitted lines decompose
channel by channel, each contribution being at most one grouping-tag line,
then exactly one metadata line, then that channel's resource lines verbatim
in their original parsed order. -/
def urlsInOrder : List SChannel → List String → Prop
  | [], out => out = []
  | ch :: rest, out =>
      ∃ eg inf rout, (eg = [] ∨ ∃ l, eg = [l]) ∧
        out = eg ++ inf :: (ch.urls ++ rout) ∧ urlsInOrder rest rout

/-! ## `m3u_mergerng.py`: normalized identity keys and the single-file parser -/

/-- Embedding of `m3u_mergerng.get_norm_key`: falsy names map to `""`; otherwise remove
every hyphen (`.replace('-','')` with a one-character pattern removes all
occurrences), drop one trailing `'台'`, then `.strip().upper()`. -/
def get_norm_key (name : String) : String :=
  if name = "" then ""
  else
    let t1 := name.data.filter (fun c => decide (c ≠ '-'))
    let t2 := match t1.getLast? with
      | some c => if c = '台' then t1.dropLast else t1
      | none => t1
    ⟨(pyStripCs t2).map Char.toUpper⟩

/-- Modelled from the spec: the normalization described in §4.2 — "strip all
internal hyphen characters, strip one trailing designator character if
present, upper-case the remainder, trim whitespace" (the designator character
is `'台'`).  Used only as the comparison point of the refinement half of C8. -/
def normKeySpec (name : String) : String :=
  let noHyph : List Char := name.data.foldr (fun c acc => if c = '-' then acc else c :: acc) []
  let deTai : List Char :=
    match noHyph.getLast? with
    | some '台' => noHyph.dropLast
    | _ => noHyph
  pyUpper ⟨pyStripCs deTai⟩

/-- Embedding of `m3u_mergerng.is_preferred`: `'-' in name or name.endswith('台')`. -/
def is_preferred (name : String) : Bool :=
  pyIn "-" name ||
    (match name.data.getLast? with
     | some c => decide (c = '台')
     | none => false)

/-- One channel record of `m3u_mergerng.parse_m3u`. -/
structure NgEntry where
  info : String
  name : String
  urls : List String
  originalGroup : String
  orderIdx : Nat
deriving DecidableEq

/-- Parser state of `m3u_mergerng.parse_m3u`. -/
structure NgSt where
  header : String
  channels : List (String × NgEntry)
  order : List String
  curInfo : Option String
  curName : Option String
deriving DecidableEq

def ngInit : NgSt := ⟨"#EXTM3U", [], [], none, none⟩

/-- One loop iteration of `parse_m3u` on a stripped line.  The URL branch is
guarded by the Python truthiness of `current_name`; whenever it is truthy an
`#EXTINF:` line has set `current_info` alongside it, so the `getD ""`
defaults are never exercised on reachable states. -/
def ngStep (st : NgSt) (line : String) : NgSt :=
  if pyStarts "#EXTM3U" line = true then { st with header := line }
  else if pyStarts "#EXTINF:" line = true then
    { st with curInfo := some line, curName := extractNameLast line }
  else if (pyStarts "http://" line || pyStarts "https://" line) && pyTruthyOS st.curName then
    let normKey := get_norm_key (st.curName.getD "")
    let originalGroup : String :=
      match findAttr gtDq.data '"' (st.curInfo.getD "").data with
      | some cap => (⟨cap⟩ : String)
      | none => "其他"
    match lookupA st.channels normKey with
    | none =>
        { st with
            channels := st.channels ++
              [(normKey, ⟨st.curInfo.getD "", st.curName.getD "", [line],
                          originalGroup, st.order.length⟩)],
            order := st.order ++ [normKey] }
    | some e =>
        let e1 := { e with urls := addUrl e.urls line }
        let e2 :=
          if is_preferred (st.curName.getD "") && !is_preferred e.name then
            { e1 with info := st.curInfo.getD "", name := st.curName.getD "" }
          else e1
        { st with channels := updateA st.channels normKey e2 }
  else st

/-- Embedding of `m3u_mergerng.parse_m3u` over the document's raw lines (file access
excluded): each line is stripped, then dispatched. -/
def parse_m3u (lines : List String) : NgSt :=
  lines.foldl (fun st l => ngStep st (pyStrip l)) ngInit

/-! ## Helper lemmas: association lists and the set model -/

section AssocLemmas

variable {κ β : Type} [DecidableEq κ]

theorem lookupA_updateA_ne (l : List (κ × β)) (k k' : κ) (v : β) (h : k' ≠ k) :
    lookupA (updateA l k v) k' = lookupA l k' := by
  induction l with
  | nil => rfl
  | cons hd t ih =>
      obtain ⟨k0, v0⟩ := hd
      by_cases hk : k0 = k
      · subst hk
        have hne : ¬ k0 = k' := fun he => h he.symm
        simp [updateA, lookupA, hne]
      · by_cases hq : k0 = k'
        · subst hq
          simp [updateA, lookupA, hk]
        · simp [updateA, lookupA, hk, hq, ih]

theorem lookupA_updateA_self (l : List (κ × β)) (k : κ) (v : β)
    (h : (lookupA l k).isSome) : lookupA (updateA l k v) k = some v := by
  induction l with
  | nil => simp [lookupA] at h
  | cons hd t ih =>
      obtain ⟨k0, v0⟩ := hd
      by_cases hk : k0 = k
      · simp [updateA, lookupA, hk]
      · simp [updateA, lookupA, hk] at h ⊢
        exact ih h

theorem lookupA_append_left (l l' : List (κ × β)) (k : κ)
    (h : (lookupA l k).isSome) : lookupA (l ++ l') k = lookupA l k := by
  induction l with
  | nil => simp [lookupA] at h
  | cons hd t ih =>
      obtain ⟨k0, v0⟩ := hd
      by_cases hk : k0 = k
      · simp [lookupA, hk]
      · simp [lookupA, hk] at h ⊢
        exact ih h

theorem lookupA_append_right (l l' : List (κ × β)) (k : κ)
    (h : lookupA l k = none) : lookupA (l ++ l') k = lookupA l' k := by
  induction l with
  | nil => rfl
  | cons hd t ih =>
      obtain ⟨k0, v0⟩ := hd
      by_cases hk : k0 = k
      · simp [lookupA, hk] at h
      · simp [lookupA, hk] at h ⊢
        exact ih h

theorem lookupA_isSome_updateA (l : List (κ × β)) (k k' : κ) (v : β) :
    (lookupA (updateA l k v) k').isSome = (lookupA l k').isSome := by
  by_cases h : k' = k
  · subst h
    cases hl : lookupA l k' with
    | none =>
        have : updateA l k' v = l := by
          induction l with
          | nil => rfl
          | cons hd t ih =>
              obtain ⟨k0, v0⟩ := hd
              by_cases hk : k0 = k'
              · simp [lookupA, hk] at hl
              · simp [lookupA, hk] at hl
                simp [updateA, hk, ih hl]
        rw [this, hl]
    | some w =>
        have := lookupA_updateA_self l k' v (by simp [hl])
        simp [this, hl]
  · rw [lookupA_updateA_ne l k k' v h]

end AssocLemmas

theorem mem_addUrl (us : List String) (u x : String) :
    x ∈ addUrl us u ↔ x ∈ us ∨ x = u := by
  unfold addUrl
  by_cases h : u ∈ us
  · simp [h]
    intro hx
    subst hx
    exact h
  · simp [h, or_comm]

theorem addUrl_of_mem (us : List String) (u : String) (h : u ∈ us) :
    addUrl us u = us := by
  simp [addUrl, h]

theorem mem_of_mem_addUrl_base (us : List String) (u x : String) (h : x ∈ us) :
    x ∈ addUrl us u := (mem_addUrl us u x).mpr (Or.inl h)

theorem urlsUnion_mem_left (a b : List String) (x : String) (h : x ∈ a) :
    x ∈ urlsUnion a b := by
  unfold urlsUnion
  induction b generalizing a with
  | nil => exact h
  | cons hd t ih => exact ih (addUrl a hd) (mem_of_mem_addUrl_base a hd x h)

theorem urlsUnion_mem_right (a b : List String) (x : String) (h : x ∈ b) :
    x ∈ urlsUnion a b := by
  unfold urlsUnion
  induction b generalizing a with
  | nil => cases h
  | cons hd t ih =>
      rcases List.mem_cons.mp h with he | ht
      · subst he
        exact urlsUnion_mem_left (addUrl a x) t x ((mem_addUrl a x x).mpr (Or.inr rfl))
      · exact ih (addUrl a hd) ht

theorem urlsUnion_eq_of_subset (a b : List String) (h : ∀ x ∈ b, x ∈ a) :
    urlsUnion a b = a := by
  unfold urlsUnion
  induction b generalizing a with
  | nil => rfl
  | cons hd t ih =>
      have h1 : addUrl a hd = a := addUrl_of_mem a hd (h hd (List.mem_cons_self hd t))
      show List.foldl addUrl (addUrl a hd) t = a
      rw [h1]
      exact ih a (fun x hx => h x (List.mem_cons_of_mem hd hx))

theorem mem_pySetList (l : List String) (x : String) :
    x ∈ pySetList l ↔ x ∈ l := by
  unfold pySetList
  suffices h : ∀ acc : List String,
      x ∈ l.foldl (fun acc x => if x ∈ acc then acc else acc ++ [x]) acc ↔ x ∈ acc ∨ x ∈ l by
    simpa using h []
  induction l with
  | nil => intro acc; simp
  | cons hd t ih =>
      intro acc
      by_cases hm : hd ∈ acc
      · simp only [List.foldl_cons, if_pos hm, ih acc, List.mem_cons]
        constructor
        · rintro (ha | ht)
          · exact Or.inl ha
          · exact Or.inr (Or.inr ht)
        · rintro (ha | he | ht)
          · exact Or.inl ha
          · exact Or.inl (he ▸ hm)
          · exact Or.inr ht
      · simp only [List.foldl_cons, if_neg hm, ih (acc ++ [hd]), List.mem_append,
          List.mem_singleton, List.mem_cons]
        tauto

theorem scoreLoop_of_no_match (item : String) (rev : Bool) (total : Nat)
    (l : List String) (idx : Nat)
    (h : ∀ kw ∈ l, pyIn (pyLower kw) (pyLower item) = false) :
    scoreLoop item rev total idx l = 0 := by
  induction l generalizing idx with
  | nil => rfl
  | cons kw rest ih =>
      have hk := h kw (List.mem_cons_self kw rest)
      simp only [scoreLoop, hk]
      simp only [Bool.false_eq_true, if_false]
      exact ih (idx + 1) (fun k hk => h k (List.mem_cons_of_mem kw hk))

theorem scoreLoop_of_match (item : String) (rev : Bool) (total : Nat)
    (l : List String) (idx i : Nat) (hi : i < l.length)
    (hmatch : pyIn (pyLower (l.get ⟨i, hi⟩)) (pyLower item) = true)
    (hbefore : ∀ j, (hj : j < i) → pyIn (pyLower (l.get ⟨j, Nat.lt_trans hj hi⟩)) (pyLower item) = false) :
    scoreLoop item rev total idx l =
      if rev then ((idx + i : Nat) : Int) + 1 else ((idx + i : Nat) : Int) - (total : Int) := by
  induction l generalizing idx i with
  | nil => cases hi
  | cons kw rest ih =>
      cases i with
      | zero =>
          simp only [List.get] at hmatch
          simp only [scoreLoop, hmatch, if_true, Nat.add_zero]
      | succ j =>
          have h0 : pyIn (pyLower kw) (pyLower item) = false := by
            have := hbefore 0 (Nat.succ_pos j)
            simpa using this
          simp only [scoreLoop, h0, Bool.false_eq_true, if_false]
          have hj' : j < rest.length := Nat.lt_of_succ_lt_succ hi
          have := ih (idx + 1) j hj' (by simpa using hmatch)
            (fun k hk => by
              have := hbefore (k + 1) (Nat.succ_lt_succ hk)
              simpa using this)
          rw [this]
          have harith : idx + 1 + j = idx + (j + 1) := by omega
          rw [harith]

theorem nodup_pySetList (l : List String) : (pySetList l).Nodup := by
  unfold pySetList
  suffices h : ∀ acc : List String, acc.Nodup →
      (l.foldl (fun acc x => if x ∈ acc then acc else acc ++ [x]) acc).Nodup by
    exact h [] List.nodup_nil
  induction l with
  | nil => intro acc ha; simpa using ha
  | cons hd t ih =>
      intro acc ha
      by_cases hm : hd ∈ acc
      · simpa [hm] using ih acc ha
      · rw [List.foldl_cons, if_neg hm]
        exact ih (acc ++ [hd]) (by simp [List.nodup_append, ha, hm])

/-! ## Claim C3: resource scoring -/

/-- Claim C3: for a configured list of K ordered keywords, a resource locator
(an item containing "://") whose text case-insensitively contains the keyword
at 0-based position i — the first such keyword in list order — scores `i - K`
in forward mode and `i + 1` in reverse mode, and a resource matching no
keyword scores `0` (`get_url_sort_score`, url_sorter.py lines 204-214). -/
theorem c3_resource_scoring (kws : List String) (rev : Bool) (item : String)
    (hurl : pyIn "://" item = true) :
    (∀ i : Nat, (hi : i < kws.length) →
        pyIn (pyLower (kws.get ⟨i, hi⟩)) (pyLower item) = true →
        (∀ j, (hj : j < i) →
          pyIn (pyLower (kws.get ⟨j, Nat.lt_trans hj hi⟩)) (pyLower item) = false) →
        get_url_sort_score kws rev item =
          if rev then (i : Int) + 1 else (i : Int) - (kws.length : Int))
    ∧ ((∀ kw ∈ kws, pyIn (pyLower kw) (pyLower item) = false) →
        get_url_sort_score kws rev item = 0) := by
  constructor
  · intro i hi hmatch hbefore
    unfold get_url_sort_score
    rw [if_pos hurl]
    have := scoreLoop_of_match item rev kws.length kws 0 i hi hmatch hbefore
    simpa using this
  · intro hnone
    unfold get_url_sort_score
    rw [if_pos hurl]
    exact scoreLoop_of_no_match item rev kws.length kws 0 hnone

/-- Witness for C3 at concrete inputs: with keywords `["4k", "hd"]` the
resource `"http://x/HD"` (first match at position 1) scores `1 - 2 = -1`
forward and `1 + 1 = 2` in reverse, and `"http://x/zz"` scores `0`. -/
theorem c3_resource_scoring_witness :
    get_url_sort_score ["4k", "hd"] false "http://x/HD" = -1 ∧
    get_url_sort_score ["4k", "hd"] true "http://x/HD" = 2 ∧
    get_url_sort_score ["4k", "hd"] false "http://x/zz" = 0 := by
  refine ⟨?_, ?_, ?_⟩
  · have h := (c3_resource_scoring ["4k", "hd"] false "http://x/HD" (by decide)).1
      1 (by decide) (by decide) (by decide)
    simpa using h
  · have h := (c3_resource_scoring ["4k", "hd"] true "http://x/HD" (by decide)).1
      1 (by decide) (by decide) (by decide)
    simpa using h
  · exact (c3_resource_scoring ["4k", "hd"] false "http://x/zz" (by decide)).2 (by decide)

/-! ## Claim C10: single-quoted group attribute crashes the patcher -/

/-- Claim C10: `update_extinf_group` is total only for metadata lines whose
group attribute is double-quoted or absent — on a line containing a
single-quoted `group-title='...'` and no double-quoted one, the single-quoted
branch reads the local `updated_line` before assignment, so the function
raises (`UnboundLocalError`, modelled as `Except.error`) instead of
returning a rewritten line (url_sorter.py lines 43-46). -/
theorem c10_single_quoted_group_raises (line newGroup : String)
    (hsq : pyIn gtSq line = true) (hdq : pyIn gtDq line = false) :
    update_extinf_group line newGroup = .error () := by
  unfold update_extinf_group
  rw [hdq, hsq]
  simp

/-- Witness for C10: the concrete line `#EXTINF:-1 group-title='News',Ch`
makes `update_extinf_group` raise. -/
theorem c10_single_quoted_group_raises_witness :
    update_extinf_group "#EXTINF:-1 group-title='News',Ch" "X" = .error () :=
  c10_single_quoted_group_raises "#EXTINF:-1 group-title='News',Ch" "X"
    (by decide) (by decide)

/-! ## Claim C5: per-entry line order in the serializers -/

/-- Claim C5 is a code bug: in the transform engine's sort mode the resource
lines are emitted BEFORE the entry's metadata line (url_sorter.py appends the
sorted URLs at lines 398-405 and only then appends `final_inf` at line 408),
contradicting the spec's serialization order (metadata line first, resources
after) and the manifest format itself.  This theorem evaluates the engine at
the failing input: sort mode (no rename parameters), one channel with two
resources — the output places both resource lines before the metadata line. -/
theorem c5_sort_mode_emits_resources_before_metadata :
    sort_m3u_urls ⟨[], false, none, none, none, none, false⟩ ["#EXTM3U"]
      [⟨"#EXTINF:-1,Ch", ["http://a", "http://b"], none, none⟩] =
      .ok ["#EXTM3U", "http://a", "http://b", "#EXTINF:-1,Ch"] := by
  rfl

/-! ## Claim C6: config-line invariant -/

/-- Counterexample to Claim C6 as stated: parsing a single document in which
the same config line appears twice under one metadata line buffers that line
twice (`parse_single_m3u` accumulates config lines with `extend`/`list(...)`
and never deduplicates within a document), so the entry's `configLines`
contains a duplicate value. -/
theorem c6_configs_counterexample :
    ((lookupA (mRun ["#EXTINF:-1,Ch", "#EXTVLCOPT:x", "#EXTVLCOPT:x", "http://u"]).map
        ("Ch", "")).map (fun cd => cd.configs) =
      some ["#EXTVLCOPT:x", "#EXTVLCOPT:x", "#EXTVLCOPT:x", "#EXTVLCOPT:x"]) ∧
    ¬ (["#EXTVLCOPT:x", "#EXTVLCOPT:x", "#EXTVLCOPT:x", "#EXTVLCOPT:x"] : List String).Nodup := by
  exact ⟨by rfl, by decide⟩

/-- Claim C6 amended: an entry's `configLines` may contain duplicate line
values (within-document parsing accumulates config lines without
deduplication); when the cross-document merge re-encounters an entry it
replaces the retained config lines by the set-deduplicated union of the old
and incoming lists — duplicate-free and containing exactly the values of
both — with no guarantee on the surviving order (`list(set(...))` iterates
in implementation-defined hash order, m3u_merger.py lines 273-277). -/
theorem c6_configs_amended (gd : GroupData) (last : Int) (it : MItem) (e : ChannelData)
    (h : lookupA gd.channels it.1.1 = some e) :
    ∃ cd, lookupA (processItem gd last it).1.channels it.1.1 = some cd ∧
      cd.configs.Nodup ∧
      (∀ x, x ∈ cd.configs ↔ x ∈ e.configs ∨ x ∈ it.2.configs) := by
  simp only [processItem, h]
  refine ⟨⟨it.2.info, urlsUnion e.urls it.2.urls, pySetList (e.configs ++ it.2.configs)⟩,
    ?_, nodup_pySetList _, ?_⟩
  · exact lookupA_updateA_self gd.channels it.1.1 _ (by simp [h])
  · intro x
    rw [mem_pySetList, List.mem_append]

/-- Witness for the amended C6: merging an entry holding configs
`["#A", "#B"]` with an incoming occurrence holding `["#B", "#C"]` yields a
duplicate-free config list whose values are exactly `#A`, `#B`, `#C`. -/
theorem c6_configs_amended_witness :
    ∃ cd, lookupA (processItem ⟨[("Ch", ⟨"i1", [], ["#A", "#B"]⟩)], ["Ch"]⟩ (-1)
        (("Ch", "G"), ⟨"i2", [], ["#B", "#C"]⟩)).1.channels "Ch" = some cd ∧
      cd.configs.Nodup ∧
      (∀ x, x ∈ cd.configs ↔ x ∈ ["#A", "#B"] ∨ x ∈ ["#B", "#C"]) :=
  c6_configs_amended ⟨[("Ch", ⟨"i1", [], ["#A", "#B"]⟩)], ["Ch"]⟩ (-1)
    (("Ch", "G"), ⟨"i2", [], ["#B", "#C"]⟩) ⟨"i1", [], ["#A", "#B"]⟩ (by rfl)

/-! ## Claim C2: group-membership uniqueness -/

/-- Counterexample to Claim C2 as stated: an entry that resolves to group
"News" in document 1 and to group "Sports" in document 2 ends up in BOTH
groups' order lists — the merge loop of `m3u_merger.main` buckets each
document by group and never removes a name from another group's order list,
so "News" still references the key. -/
theorem c2_group_uniqueness_counterexample :
    ((lookupA (mergeDocs
        [[(("X", "News"), ⟨"i1", ["http://u"], []⟩)],
         [(("X", "Sports"), ⟨"i2", ["http://u"], []⟩)]]).groups "News").map
      (fun gd => gd.order) = some ["X"]) ∧
    ((lookupA (mergeDocs
        [[(("X", "News"), ⟨"i1", ["http://u"], []⟩)],
         [(("X", "Sports"), ⟨"i2", ["http://u"], []⟩)]]).groups "Sports").map
      (fun gd => gd.order) = some ["X"]) := by
  exact ⟨by rfl, by rfl⟩

theorem mem_insertAt {α : Type} (n : Nat) (a x : α) (l : List α) (h : x ∈ l) :
    x ∈ insertAt n a l := by
  induction l generalizing n with
  | nil => cases h
  | cons hd t ih =>
      cases n with
      | zero => exact List.mem_cons_of_mem a h
      | succ m =>
          rcases List.mem_cons.mp h with he | ht
          · exact he ▸ List.mem_cons_self hd _
          · exact List.mem_cons_of_mem hd (ih m ht)

theorem processItem_order_mono (gd : GroupData) (last : Int) (it : MItem) (n : String)
    (h : n ∈ gd.order) : n ∈ (processItem gd last it).1.order := by
  unfold processItem
  cases hl : lookupA gd.channels it.1.1 with
  | some e => simpa [hl] using h
  | none => simpa [hl] using mem_insertAt _ it.1.1 n gd.order h

theorem processItems_order_mono (items : List MItem) :
    ∀ (gd : GroupData) (last : Int) (n : String),
      n ∈ gd.order → n ∈ (processItems gd last items).1.order := by
  induction items with
  | nil => intro gd last n h; exact h
  | cons it its ih =>
      intro gd last n h
      exact ih _ _ n (processItem_order_mono gd last it n h)

theorem processBucket_order_mono (st : MergeSt) (g : String) (items : List MItem)
    (g' : String) (gd' : GroupData) (h : lookupA st.groups g' = some gd') :
    ∃ gd'', lookupA (processBucket st g items).groups g' = some gd'' ∧
      ∀ n ∈ gd'.order, n ∈ gd''.order := by
  unfold processBucket
  cases hg : lookupA st.groups g with
  | some gd =>
      by_cases he : g' = g
      · subst he
        have hde : gd = gd' := by
          rw [hg] at h
          exact Option.some.inj h
        subst hde
        refine ⟨(processItems gd (-1) items).1, ?_, ?_⟩
        · exact lookupA_updateA_self st.groups g' _ (by simp [hg])
        · intro n hn
          exact processItems_order_mono items gd (-1) n hn
      · exact ⟨gd', lookupA_updateA_ne st.groups g g' _ he ▸ h, fun n hn => hn⟩
  | none =>
      refine ⟨gd', ?_, fun n hn => hn⟩
      rw [lookupA_append_left st.groups _ g' (by simp [h])]
      exact h

theorem foldBuckets_order_mono (bs : List (String × List MItem)) :
    ∀ (st : MergeSt) (g' : String) (gd' : GroupData),
      lookupA st.groups g' = some gd' →
      ∃ gd'', lookupA (foldBuckets st bs).groups g' = some gd'' ∧
        ∀ n ∈ gd'.order, n ∈ gd''.order := by
  induction bs with
  | nil => intro st g' gd' h; exact ⟨gd', h, fun n hn => hn⟩
  | cons b rest ih =>
      intro st g' gd' h
      obtain ⟨gd1, h1, hsub1⟩ := processBucket_order_mono st b.1 b.2 g' gd' h
      obtain ⟨gd2, h2, hsub2⟩ := ih (processBucket st b.1 b.2) g' gd1 h1
      exact ⟨gd2, h2, fun n hn => hsub2 n (hsub1 n hn)⟩

/-- Claim C2 amended: a logical entry key may appear in several groups' order
lists — when an entry's group changes across documents it is inserted into
the new group's order list but never removed from the old one (merging only
ever grows a group's order list), so in the News→Sports scenario the final
state has the key in both order lists. -/
theorem c2_order_lists_only_grow (st : MergeSt) (items : List MItem)
    (g : String) (gd : GroupData) (h : lookupA st.groups g = some gd) :
    ∃ gd', lookupA (mergeDoc st items).groups g = some gd' ∧
      ∀ n ∈ gd.order, n ∈ gd'.order := by
  unfold mergeDoc
  exact foldBuckets_order_mono (buildBuckets items) st g gd h

/-- Witness for the amended C2: after document 1 placed "X" in "News",
merging document 2 (which moves "X" to "Sports") leaves "News" with an order
list still containing "X". -/
theorem c2_order_lists_only_grow_witness :
    ∃ gd', lookupA (mergeDoc (mergeDocs [[(("X", "News"), ⟨"i1", ["http://u"], []⟩)]])
        [(("X", "Sports"), ⟨"i2", ["http://u"], []⟩)]).groups "News" = some gd' ∧
      ∀ n ∈ ["X"], n ∈ gd'.order := by
  have h := c2_order_lists_only_grow
    (mergeDocs [[(("X", "News"), ⟨"i1", ["http://u"], []⟩)]])
    [(("X", "Sports"), ⟨"i2", ["http://u"], []⟩)]
    "News" ⟨[("X", ⟨"i1", ["http://u"], []⟩)], ["X"]⟩ (by rfl)
  obtain ⟨gd', h1, h2⟩ := h
  exact ⟨gd', h1, by simpa using h2⟩

/-! ## Claim C1: relative-insertion merge order -/

theorem pyIndexOf_first {α : Type} [DecidableEq α] (l : List α) (a : α) (i : Nat)
    (hi : i < l.length) (hget : l.get ⟨i, hi⟩ = a)
    (hbef : ∀ j, (hj : j < i) → l.get ⟨j, Nat.lt_trans hj hi⟩ ≠ a) :
    pyIndexOf a l = some i := by
  induction l generalizing i with
  | nil => cases hi
  | cons hd t ih =>
      cases i with
      | zero =>
          simp only [List.get] at hget
          simp [pyIndexOf, hget]
      | succ j =>
          have hne : hd ≠ a := by
            have := hbef 0 (Nat.succ_pos j)
            simpa using this
          have hj' : j < t.length := Nat.lt_of_succ_lt_succ hi
          have hrec := ih j hj' (by simpa using hget)
            (fun k hk => by
              have := hbef (k + 1) (Nat.succ_lt_succ hk)
              simpa using this)
          simp [pyIndexOf, hne, hrec]

/-- Claim C1: in the per-group merge fold (cursor `lastKnownIndex` starting
at `-1`), a key already present in the group's order list leaves the order
list unchanged and moves the cursor to the key's existing (first-occurrence)
position, while a new key is inserted at position `lastKnownIndex + 1` — an
ordered insert, not an append — and the cursor moves to that position;
consequently, merging `[A,D,B]` after a first document produced `[A,B,C]`
yields the order list `[A,D,B,C]`. -/
theorem c1_relative_insertion_merge_order (gd : GroupData) (last : Int) (it : MItem) :
    (∀ e, lookupA gd.channels it.1.1 = some e →
        ((processItem gd last it).1.order = gd.order ∧
          ∀ i, (hi : i < gd.order.length) → gd.order.get ⟨i, hi⟩ = it.1.1 →
            (∀ j, (hj : j < i) → gd.order.get ⟨j, Nat.lt_trans hj hi⟩ ≠ it.1.1) →
            (processItem gd last it).2 = (i : Int)))
    ∧ (lookupA gd.channels it.1.1 = none →
        ((processItem gd last it).1.order = insertAt (last + 1).toNat it.1.1 gd.order ∧
          (processItem gd last it).2 = last + 1))
    ∧ ((lookupA (mergeDocs
          [[(("A", "G"), ⟨"iA", ["http://a"], []⟩), (("B", "G"), ⟨"iB", ["http://b"], []⟩),
            (("C", "G"), ⟨"iC", ["http://c"], []⟩)],
           [(("A", "G"), ⟨"iA", ["http://a"], []⟩), (("D", "G"), ⟨"iD", ["http://d"], []⟩),
            (("B", "G"), ⟨"iB", ["http://b"], []⟩)]]).groups "G").map
        (fun gdG => gdG.order) = some ["A", "D", "B", "C"]) := by
  refine ⟨?_, ?_, by rfl⟩
  · intro e he
    constructor
    · simp only [processItem, he]
    · intro i hi hget hbef
      simp only [processItem, he, pyIndexOf_first gd.order it.1.1 i hi hget hbef]
  · intro he
    simp [processItem, he]

/-- Witness for C1: in a group whose order list is `["A"]`, re-encountering
`A` keeps the order and sets the cursor to `0`; a new `B` with cursor `0` is
inserted at position `1` and the cursor becomes `1`. -/
theorem c1_relative_insertion_merge_order_witness :
    ((processItem ⟨[("A", ⟨"iA", [], []⟩)], ["A"]⟩ 5 (("A", "G"), ⟨"iA2", [], []⟩)).1.order
        = ["A"] ∧
      (processItem ⟨[("A", ⟨"iA", [], []⟩)], ["A"]⟩ 5 (("A", "G"), ⟨"iA2", [], []⟩)).2 = 0) ∧
    ((processItem ⟨[("A", ⟨"iA", [], []⟩)], ["A"]⟩ 0 (("B", "G"), ⟨"iB", [], []⟩)).1.order
        = insertAt 1 "B" ["A"] ∧
      (processItem ⟨[("A", ⟨"iA", [], []⟩)], ["A"]⟩ 0 (("B", "G"), ⟨"iB", [], []⟩)).2 = 0 + 1) := by
  constructor
  · have h := (c1_relative_insertion_merge_order ⟨[("A", ⟨"iA", [], []⟩)], ["A"]⟩ 5
      (("A", "G"), ⟨"iA2", [], []⟩)).1 ⟨"iA", [], []⟩ (by rfl)
    refine ⟨h.1, ?_⟩
    have := h.2 0 (by decide) (by decide) (by decide)
    simpa using this
  · exact (c1_relative_insertion_merge_order ⟨[("A", ⟨"iA", [], []⟩)], ["A"]⟩ 0
      (("B", "G"), ⟨"iB", [], []⟩)).2.1 (by rfl)

/-! ## Claim C8: normalized identity keys -/

theorem filter_eq_foldr_hyphen (l : List Char) :
    l.filter (fun c => decide (c ≠ '-')) =
      l.foldr (fun c acc => if c = '-' then acc else c :: acc) [] := by
  induction l with
  | nil => rfl
  | cons c cs ih =>
      rw [List.filter_cons, List.foldr_cons]
      by_cases hc : c = '-'
      · rw [if_neg (show ¬ (decide (c ≠ '-') = true) by simp [hc]), if_pos hc]
        exact ih
      · rw [if_pos (show decide (c ≠ '-') = true by simp [hc]), if_neg hc, ih]

theorem get_norm_key_eq_spec (name : String) : get_norm_key name = normKeySpec name := by
  unfold get_norm_key normKeySpec
  by_cases h : name = ""
  · subst h
    rfl
  · rw [if_neg h, ← filter_eq_foldr_hyphen]
    dsimp only
    cases hl : (name.data.filter (fun c => decide (c ≠ '-'))).getLast? with
    | none => simp [hl, pyUpper]
    | some c =>
        by_cases hc : c = '台'
        · subst hc
          simp [hl, pyUpper]
        · simp only [hl, if_neg hc]
          split
          · rename_i heq
            injection heq with heq
            exact absurd heq hc
          · simp [pyUpper]

/-- Claim C8: in normalized-merge mode the identity key of a name is the name
with all hyphens removed, one trailing `'台'` stripped if present, whitespace
trimmed and the remainder upper-cased (`get_norm_key` agrees with the spec's
normalization, first conjunct); and two occurrences whose names normalize to
the same key are merged into a single logical entry whose metadata line is
supplied by the later occurrence exactly when it is preferred (contains a
hyphen or ends in `'台'`) and the buffered one is not — so whenever either
variant is preferred, the displayed name is a preferred one
(`m3u_mergerng.parse_m3u`, lines 56-79). -/
theorem c8_normalized_identity_key :
    (∀ name : String, get_norm_key name = normKeySpec name)
    ∧ (∀ i1 u1 i2 u2 n1 n2 : String,
        pyStarts "#EXTM3U" i1 = false → pyStarts "#EXTINF:" i1 = true →
        extractNameLast i1 = some n1 →
        pyStarts "#EXTM3U" i2 = false → pyStarts "#EXTINF:" i2 = true →
        extractNameLast i2 = some n2 →
        pyStarts "#EXTM3U" u1 = false → pyStarts "#EXTINF:" u1 = false →
        (pyStarts "http://" u1 || pyStarts "https://" u1) = true →
        pyStarts "#EXTM3U" u2 = false → pyStarts "#EXTINF:" u2 = false →
        (pyStarts "http://" u2 || pyStarts "https://" u2) = true →
        n1 ≠ "" → n2 ≠ "" →
        get_norm_key n1 = get_norm_key n2 →
        pyStrip i1 = i1 → pyStrip u1 = u1 → pyStrip i2 = i2 → pyStrip u2 = u2 →
        (parse_m3u [i1, u1, i2, u2]).order = [get_norm_key n2] ∧
        ∃ e, lookupA (parse_m3u [i1, u1, i2, u2]).channels (get_norm_key n2) = some e ∧
          (∀ u, u ∈ e.urls ↔ u = u1 ∨ u = u2) ∧
          e.info = (if is_preferred n2 && !is_preferred n1 then i2 else i1) ∧
          e.name = (if is_preferred n2 && !is_preferred n1 then n2 else n1) ∧
          ((is_preferred n1 = true ∨ is_preferred n2 = true) →
            is_preferred (if is_preferred n2 && !is_preferred n1 then n2 else n1) = true)) := by
  constructor
  · exact get_norm_key_eq_spec
  · intro i1 u1 i2 u2 n1 n2 h1m h1i h1n h2m h2i h2n hu1m hu1i hu1u hu2m hu2i hu2u
      hn1 hn2 hkey hs1 hs2 hs3 hs4
    have hstate : parse_m3u [i1, u1, i2, u2] =
        ⟨"#EXTM3U",
          [(get_norm_key n2,
            if is_preferred n2 && !is_preferred n1 then
              (⟨i2, n2, addUrl [u1] u2,
                (match findAttr gtDq.data '"' i1.data with
                 | some cap => (⟨cap⟩ : String)
                 | none => "其他"), 0⟩ : NgEntry)
            else
              ⟨i1, n1, addUrl [u1] u2,
                (match findAttr gtDq.data '"' i1.data with
                 | some cap => (⟨cap⟩ : String)
                 | none => "其他"), 0⟩)],
          [get_norm_key n2], some i2, some n2⟩ := by
      simp only [parse_m3u, List.foldl_cons, List.foldl_nil, hs1, hs2, hs3, hs4]
      simp [ngStep, ngInit, pyTruthyOS, h1m, h1i, h1n, h2m, h2i, h2n,
        hu1m, hu1i, hu1u, hu2m, hu2i, hu2u, hn1, hn2, hkey,
        lookupA, updateA, Option.getD]
    rw [hstate]
    generalize (match findAttr gtDq.data '"' i1.data with
      | some cap => (⟨cap⟩ : String)
      | none => "其他") = og
    by_cases hpref : (is_preferred n2 && !is_preferred n1) = true
    · rw [if_pos hpref, if_pos hpref, if_pos hpref]
      refine ⟨rfl, ⟨i2, n2, addUrl [u1] u2, og, 0⟩, by simp [lookupA], ?_, rfl, rfl, ?_⟩
      · intro u
        rw [show (⟨i2, n2, addUrl [u1] u2, og, 0⟩ : NgEntry).urls = addUrl [u1] u2 from rfl,
          mem_addUrl]
        simp
      · intro _
        cases hb2 : is_preferred n2 with
        | true => rfl
        | false => simp [hb2] at hpref
    · rw [if_neg hpref, if_neg hpref, if_neg hpref]
      refine ⟨rfl, ⟨i1, n1, addUrl [u1] u2, og, 0⟩, by simp [lookupA], ?_, rfl, rfl, ?_⟩
      · intro u
        rw [show (⟨i1, n1, addUrl [u1] u2, og, 0⟩ : NgEntry).urls = addUrl [u1] u2 from rfl,
          mem_addUrl]
        simp
      · intro hor
        rcases hor with hp1 | hp2
        · exact hp1
        · cases hb : is_preferred n1 with
          | true => rfl
          | false => exact absurd (by simp [hp2, hb]) hpref

/-- Witness for C8: `"CCTV1"` and `"CCTV-1台"` normalize to the same key
`"CCTV1"`; parsing two occurrences merges them into one entry whose metadata
line and name come from the preferred variant `"CCTV-1台"`. -/
theorem c8_normalized_identity_key_witness :
    (get_norm_key "CCTV-1台" = normKeySpec "CCTV-1台") ∧
    ((parse_m3u ["#EXTINF:-1,CCTV1", "http://u1", "#EXTINF:-1,CCTV-1台", "http://u2"]).order
        = [get_norm_key "CCTV-1台"] ∧
      ∃ e, lookupA (parse_m3u ["#EXTINF:-1,CCTV1", "http://u1",
            "#EXTINF:-1,CCTV-1台", "http://u2"]).channels (get_norm_key "CCTV-1台") = some e ∧
        (∀ u, u ∈ e.urls ↔ u = "http://u1" ∨ u = "http://u2") ∧
        e.info = (if is_preferred "CCTV-1台" && !is_preferred "CCTV1" then
            "#EXTINF:-1,CCTV-1台" else "#EXTINF:-1,CCTV1") ∧
        e.name = (if is_preferred "CCTV-1台" && !is_preferred "CCTV1" then
            "CCTV-1台" else "CCTV1") ∧
        ((is_preferred "CCTV1" = true ∨ is_preferred "CCTV-1台" = true) →
          is_preferred (if is_preferred "CCTV-1台" && !is_preferred "CCTV1" then
            "CCTV-1台" else "CCTV1") = true)) :=
  ⟨c8_normalized_identity_key.1 "CCTV-1台",
    c8_normalized_identity_key.2 "#EXTINF:-1,CCTV1" "http://u1" "#EXTINF:-1,CCTV-1台"
      "http://u2" "CCTV1" "CCTV-1台"
      (by decide) (by decide) (by decide) (by decide) (by decide) (by decide)
      (by decide) (by decide) (by decide) (by decide) (by decide) (by decide)
      (by decide) (by decide) (by decide) (by decide) (by decide) (by decide)
      (by decide)⟩

/-! ## Claim C4: rename/sort mutual exclusivity -/

theorem egBlock_shape (p : SParams) (lg : Option String) (ch : SChannel) :
    (egBlock p lg ch).1 = [] ∨ ∃ l, (egBlock p lg ch).1 = [l] := by
  simp only [egBlock]
  split
  · split
    · split
      · right; exact ⟨_, rfl⟩
      · cases ch.extgrpLine with
        | some l => right; exact ⟨l, rfl⟩
        | none => left; rfl
    · cases ch.extgrpLine with
      | some l => right; exact ⟨l, rfl⟩
      | none => left; rfl
  · left; rfl

theorem shape_of_block_eq (eg : List String) (i : String) (us ls : List String)
    (h : eg ++ [i] ++ us = ls) (hshape : eg = [] ∨ ∃ l, eg = [l]) :
    ∃ eg' inf, (eg' = [] ∨ ∃ l, eg' = [l]) ∧ ls = eg' ++ inf :: us :=
  ⟨eg, i, hshape, by rw [← h]; simp⟩

theorem channelLines_rename_shape (p : SParams) (lg : Option String) (ch : SChannel)
    (ls : List String) (lg' : Option String) (hrename : renameModeOf p = true)
    (h : channelLines p lg ch = .ok (ls, lg')) :
    ∃ eg inf, (eg = [] ∨ ∃ l, eg = [l]) ∧ ls = eg ++ inf :: ch.urls := by
  have hegs := egBlock_shape p lg ch
  simp only [channelLines, hrename] at h
  simp only [Bool.not_true, Bool.and_false, Bool.or_false, Bool.not_not,
    eq_self_iff_true, if_true] at h
  repeat' split at h
  all_goals try cases h
  all_goals exact shape_of_block_eq _ _ _ _ rfl hegs

theorem sortCoreAux_rename_shape (p : SParams) (hrename : renameModeOf p = true) :
    ∀ (chs : List SChannel) (lg : Option String) (out : List String),
      sortCoreAux p lg chs = .ok out → urlsInOrder chs out := by
  intro chs
  induction chs with
  | nil =>
      intro lg out h
      injection h with h
      simp [urlsInOrder, ← h]
  | cons ch rest ih =>
      intro lg out h
      unfold sortCoreAux at h
      cases hcl : channelLines p lg ch with
      | error e =>
          simp only [hcl] at h
          cases h
      | ok pr =>
          obtain ⟨ls, lg'⟩ := pr
          simp only [hcl] at h
          cases hrest : sortCoreAux p lg' rest with
          | error e =>
              simp only [hrest] at h
              cases h
          | ok rls =>
              simp only [hrest] at h
              injection h with h
              obtain ⟨eg, inf, hshape, hls⟩ :=
                channelLines_rename_shape p lg ch ls lg' hrename hcl
              refine ⟨eg, inf, rls, hshape, ?_, ih lg' rls hrest⟩
              rw [← h, hls]
              simp

/-- Claim C4: whenever a rename parameter (new display name or new group
name) is supplied, the transform engine performs no resource reordering —
on every successful run the output decomposes entry by entry with each
entry's resource lines emitted verbatim in their original parsed order right
after its metadata line, even if URL- or group-keyword lists that would
otherwise trigger sorting are supplied (url_sorter.py lines 190-191,
255, 341-413). -/
theorem c4_rename_mode_preserves_resource_order (p : SParams) (hdr : List String)
    (chs : List SChannel) (out : List String) (hrename : renameModeOf p = true)
    (hok : sort_m3u_urls p hdr chs = .ok out) :
    ∃ body, out = hdr ++ body ∧ urlsInOrder chs body := by
  unfold sort_m3u_urls at hok
  rw [hrename] at hok
  simp only [Bool.not_true, Bool.and_false, Bool.false_and, Bool.false_eq_true,
    if_false] at hok
  cases haux : sortCoreAux p none chs with
  | error e =>
      simp only [haux] at hok
      cases hok
  | ok body =>
      simp only [haux] at hok
      injection hok with hok
      exact ⟨body, hok.symm, sortCoreAux_rename_shape p hrename chs none body haux⟩

/-! ## Claim C7: within-document deduplication -/

/-- Claim C7: when the same identity key (name, group) is met twice while
parsing one document — here a schematic document [metadata, config, resource,
metadata, config, resource] whose two metadata lines carry the same extracted
name and group — the parser merges the second occurrence into the buffered
entry: the resource set is the union, the config-line values are the union,
the metadata line is the later occurrence's, and the output order list holds
the key exactly once (`parse_single_m3u`, m3u_merger.py lines 43-107). -/
theorem c7_within_document_dedup
    (i1 c1 u1 i2 c2 u2 n g : String)
    (h1m : pyStarts "#EXTM3U" i1 = false) (h1i : pyStarts "#EXTINF:" i1 = true)
    (h1n : extractNameFirst i1 = some n) (h1g : extract_group_title i1 = g)
    (h2m : pyStarts "#EXTM3U" i2 = false) (h2i : pyStarts "#EXTINF:" i2 = true)
    (h2n : extractNameFirst i2 = some n) (h2g : extract_group_title i2 = g)
    (hc1m : pyStarts "#EXTM3U" c1 = false) (hc1i : pyStarts "#EXTINF:" c1 = false)
    (hc1h : pyStarts "#" c1 = true)
    (hc2m : pyStarts "#EXTM3U" c2 = false) (hc2i : pyStarts "#EXTINF:" c2 = false)
    (hc2h : pyStarts "#" c2 = true)
    (hu1m : pyStarts "#EXTM3U" u1 = false) (hu1i : pyStarts "#EXTINF:" u1 = false)
    (hu1h : pyStarts "#" u1 = false)
    (hu1u : (pyStarts "http://" u1 || pyStarts "https://" u1) = true)
    (hu2m : pyStarts "#EXTM3U" u2 = false) (hu2i : pyStarts "#EXTINF:" u2 = false)
    (hu2h : pyStarts "#" u2 = false)
    (hu2u : (pyStarts "http://" u2 || pyStarts "https://" u2) = true)
    (hn : n ≠ "") :
    (mRun [i1, c1, u1, i2, c2, u2]).order = [(n, g)] ∧
    ∃ cd, lookupA (mRun [i1, c1, u1, i2, c2, u2]).map (n, g) = some cd ∧
      cd.info = i2 ∧
      (∀ u, u ∈ cd.urls ↔ u = u1 ∨ u = u2) ∧
      (∀ x, x ∈ cd.configs ↔ x = c1 ∨ x = c2) := by
  have h1ne : i1 ≠ "" := by
    intro he
    rw [he] at h1i
    exact absurd h1i (by decide)
  have h2ne : i2 ≠ "" := by
    intro he
    rw [he] at h2i
    exact absurd h2i (by decide)
  have hstate : mRun [i1, c1, u1, i2, c2, u2] =
      ⟨"", [((n, g), ⟨i2, addUrl [u1] u2, [c1, c1, c2]⟩)], [(n, g)],
        some i2, some n, some g, [c2]⟩ := by
    simp [mRun, mInit, mStep, mFlush, h1m, h1i, h1n, h1g, h2m, h2i, h2n, h2g,
      hc1m, hc1i, hc1h, hc2m, hc2i, hc2h, hu1m, hu1i, hu1h, hu1u,
      hu2m, hu2i, hu2h, hu2u, pyTruthyOS, hn, h1ne, h2ne, Option.getD,
      lookupA, modifyA, updateA, addUrl]
  refine ⟨by rw [hstate], ⟨i2, addUrl [u1] u2, [c1, c1, c2]⟩, ?_, rfl, ?_, ?_⟩
  · rw [hstate]
    simp [lookupA]
  · intro u
    rw [mem_addUrl]
    simp
  · intro x
    simp only [List.mem_cons, List.not_mem_nil, or_false]
    tauto

/-- Witness for C7 at a concrete document: the key ("Ch", "G") occurs twice;
the parse yields a single entry with both resources, both config values and
the second metadata line. -/
theorem c7_within_document_dedup_witness :
    (mRun ["#EXTINF:-1 group-title=\"G\",Ch", "#EXTOPT:c1", "http://u1",
           "#EXTINF:-2 group-title=\"G\",Ch", "#EXTOPT:c2", "http://u2"]).order
      = [("Ch", "G")] ∧
    ∃ cd, lookupA (mRun ["#EXTINF:-1 group-title=\"G\",Ch", "#EXTOPT:c1", "http://u1",
           "#EXTINF:-2 group-title=\"G\",Ch", "#EXTOPT:c2", "http://u2"]).map ("Ch", "G")
        = some cd ∧
      cd.info = "#EXTINF:-2 group-title=\"G\",Ch" ∧
      (∀ u, u ∈ cd.urls ↔ u = "http://u1" ∨ u = "http://u2") ∧
      (∀ x, x ∈ cd.configs ↔ x = "#EXTOPT:c1" ∨ x = "#EXTOPT:c2") :=
  c7_within_document_dedup
    "#EXTINF:-1 group-title=\"G\",Ch" "#EXTOPT:c1" "http://u1"
    "#EXTINF:-2 group-title=\"G\",Ch" "#EXTOPT:c2" "http://u2" "Ch" "G"
    (by decide) (by decide) (by decide) (by decide)
    (by decide) (by decide) (by decide) (by decide)
    (by decide) (by decide) (by decide)
    (by decide) (by decide) (by decide)
    (by decide) (by decide) (by decide) (by decide)
    (by decide) (by decide) (by decide) (by decide)
    (by decide)

/-! ## Claim C9: idempotence of resource deduplication -/

theorem lookupA_append_single_ne {κ β : Type} [DecidableEq κ]
    (l : List (κ × β)) (g g' : κ) (v : β) (h : g' ≠ g) :
    lookupA (l ++ [(g, v)]) g' = lookupA l g' := by
  induction l with
  | nil =>
      have hgg : g ≠ g' := fun he => h he.symm
      simp [lookupA, hgg]
  | cons hd t ih =>
      obtain ⟨k0, v0⟩ := hd
      by_cases hk : k0 = g'
      · simp [lookupA, hk]
      · simp [lookupA, hk, ih]

theorem processItem_urls_grow (gd : GroupData) (last : Int) (it : MItem) (n : String)
    (us : List String) (h : urlsGd gd n = some us) :
    ∃ us', urlsGd (processItem gd last it).1 n = some us' ∧ ∀ u ∈ us, u ∈ us' := by
  unfold urlsGd at h ⊢
  cases hl : lookupA gd.channels it.1.1 with
  | some e =>
      simp only [processItem, hl]
      by_cases hn : n = it.1.1
      · subst hn
        rw [hl] at h
        have hus : e.urls = us := by
          injection h
        refine ⟨urlsUnion e.urls it.2.urls, ?_, ?_⟩
        · rw [lookupA_updateA_self _ _ _ (by simp [hl])]
          rfl
        · intro u hu
          exact urlsUnion_mem_left _ _ u (hus ▸ hu)
      · refine ⟨us, ?_, fun u hu => hu⟩
        rw [lookupA_updateA_ne _ _ _ _ hn]
        exact h
  | none =>
      simp only [processItem, hl]
      refine ⟨us, ?_, fun u hu => hu⟩
      have hsome : (lookupA gd.channels n).isSome := by
        cases hq : lookupA gd.channels n
        · rw [hq] at h
          cases h
        · simp
      rw [lookupA_append_left _ _ _ hsome]
      exact h

theorem processItems_urls_grow (items : List MItem) :
    ∀ (gd : GroupData) (last : Int) (n : String) (us : List String),
      urlsGd gd n = some us →
      ∃ us', urlsGd (processItems gd last items).1 n = some us' ∧ ∀ u ∈ us, u ∈ us' := by
  induction items with
  | nil => intro gd last n us h; exact ⟨us, h, fun u hu => hu⟩
  | cons it its ih =>
      intro gd last n us h
      obtain ⟨us1, h1, hs1⟩ := processItem_urls_grow gd last it n us h
      obtain ⟨us2, h2, hs2⟩ :=
        ih (processItem gd last it).1 (processItem gd last it).2 n us1 h1
      exact ⟨us2, h2, fun u hu => hs2 u (hs1 u hu)⟩

theorem processItems_covers (items : List MItem) :
    ∀ (gd : GroupData) (last : Int) (it : MItem), it ∈ items →
      ∃ us, urlsGd (processItems gd last items).1 it.1.1 = some us ∧
        ∀ u ∈ it.2.urls, u ∈ us := by
  induction items with
  | nil => intro gd last it h; cases h
  | cons jt its ih =>
      intro gd last it h
      rcases List.mem_cons.mp h with he | ht
      · subst he
        have hstep : ∃ us0, urlsGd (processItem gd last it).1 it.1.1 = some us0 ∧
            ∀ u ∈ it.2.urls, u ∈ us0 := by
          unfold urlsGd
          cases hl : lookupA gd.channels it.1.1 with
          | some e =>
              refine ⟨urlsUnion e.urls it.2.urls, ?_, ?_⟩
              · simp only [processItem, hl]
                rw [lookupA_updateA_self _ _ _ (by simp [hl])]
                rfl
              · intro u hu
                exact urlsUnion_mem_right _ _ u hu
          | none =>
              refine ⟨it.2.urls, ?_, fun u hu => hu⟩
              simp only [processItem, hl]
              have hap : lookupA (gd.channels ++ [(it.1.1, it.2)]) it.1.1 = some it.2 := by
                rw [lookupA_append_right _ _ _ hl]
                simp [lookupA]
              rw [hap]
              rfl
        obtain ⟨us0, h0, hs0⟩ := hstep
        obtain ⟨us, h1, hs1⟩ := processItems_urls_grow its _ _ it.1.1 us0 h0
        exact ⟨us, h1, fun u hu => hs1 u (hs0 u hu)⟩
      · exact ih _ _ it ht

theorem processItem_pass2 (gd : GroupData) (last : Int) (it : MItem) (e : ChannelData)
    (he : lookupA gd.channels it.1.1 = some e) (hsub : ∀ u ∈ it.2.urls, u ∈ e.urls)
    (n : String) : urlsGd (processItem gd last it).1 n = urlsGd gd n := by
  unfold urlsGd
  simp only [processItem, he]
  by_cases hn : n = it.1.1
  · subst hn
    rw [lookupA_updateA_self _ _ _ (by simp [he]), he]
    simp [urlsUnion_eq_of_subset e.urls it.2.urls hsub]
  · rw [lookupA_updateA_ne _ _ _ _ hn]

theorem processItems_pass2 (items : List MItem) :
    ∀ (gd : GroupData) (last : Int), bucketCovered gd items →
      ∀ n, urlsGd (processItems gd last items).1 n = urlsGd gd n := by
  induction items with
  | nil => intro gd last _ n; rfl
  | cons it its ih =>
      intro gd last hcov n
      obtain ⟨e, he, hsub⟩ := hcov it (List.mem_cons_self it its)
      have hstep := processItem_pass2 gd last it e he hsub
      have hcov' : bucketCovered (processItem gd last it).1 its := by
        intro jt hjt
        obtain ⟨e', he', hsub'⟩ := hcov jt (List.mem_cons_of_mem it hjt)
        have hpt := hstep jt.1.1
        unfold urlsGd at hpt
        rw [he'] at hpt
        cases hq : lookupA (processItem gd last it).1.channels jt.1.1 with
        | none =>
            rw [hq] at hpt
            cases hpt
        | some e2 =>
            rw [hq] at hpt
            have he2 : e2.urls = e'.urls := by
              injection hpt
            exact ⟨e2, rfl, fun u hu => he2 ▸ hsub' u hu⟩
      exact (ih (processItem gd last it).1 (processItem gd last it).2 hcov' n).trans
        (hstep n)

theorem processBucket_lookup_ne (st : MergeSt) (g : String) (items : List MItem)
    (g' : String) (h : g' ≠ g) :
    lookupA (processBucket st g items).groups g' = lookupA st.groups g' := by
  unfold processBucket
  cases hg : lookupA st.groups g with
  | some gd => exact lookupA_updateA_ne _ _ _ _ h
  | none => exact lookupA_append_single_ne _ _ _ _ h

theorem processBucket_lookup_self (st : MergeSt) (g : String) (items : List MItem) :
    lookupA (processBucket st g items).groups g =
      some (processItems ((lookupA st.groups g).getD emptyGD) (-1) items).1 := by
  unfold processBucket
  cases hg : lookupA st.groups g with
  | some gd =>
      simp only [Option.getD]
      exact lookupA_updateA_self _ _ _ (by simp [hg])
  | none =>
      simp only [Option.getD]
      rw [lookupA_append_right _ _ _ hg]
      simp [lookupA]

theorem addToBucket_keys (g : String) (it : MItem) (bs : List (String × List MItem)) :
    (addToBucket g it bs).map Prod.fst =
      if g ∈ bs.map Prod.fst then bs.map Prod.fst else bs.map Prod.fst ++ [g] := by
  induction bs with
  | nil => simp [addToBucket]
  | cons b rest ih =>
      obtain ⟨g0, l0⟩ := b
      by_cases hg : g0 = g
      · subst hg
        simp [addToBucket]
      · have hne : ¬ g = g0 := fun he => hg he.symm
        by_cases hmem : g ∈ rest.map Prod.fst
        · simp [addToBucket, hg, ih, hne, hmem]
        · simp [addToBucket, hg, ih, hne, hmem]

theorem buildBuckets_keys_nodup (items : List MItem) :
    ((buildBuckets items).map Prod.fst).Nodup := by
  suffices h : ∀ bs : List (String × List MItem), (bs.map Prod.fst).Nodup →
      ((items.foldl (fun bs it => addToBucket it.1.2 it bs) bs).map Prod.fst).Nodup by
    exact h [] (by simp)
  induction items with
  | nil => intro bs h; simpa using h
  | cons it its ih =>
      intro bs h
      rw [List.foldl_cons]
      refine ih _ ?_
      rw [addToBucket_keys]
      by_cases hm : it.1.2 ∈ bs.map Prod.fst
      · simpa [hm] using h
      · rw [if_neg hm]
        simp [List.nodup_append, h, hm]

theorem foldBuckets_lookup_of_not_mem (bs : List (String × List MItem)) :
    ∀ (st : MergeSt) (g : String), g ∉ bs.map Prod.fst →
      lookupA (foldBuckets st bs).groups g = lookupA st.groups g := by
  induction bs with
  | nil => intro st g _; rfl
  | cons b rest ih =>
      intro st g hg
      have h1 : ¬ g = b.1 ∧ g ∉ rest.map Prod.fst := by
        simpa [not_or] using hg
      exact (ih (processBucket st b.1 b.2) g h1.2).trans
        (processBucket_lookup_ne st b.1 b.2 g h1.1)

theorem foldBuckets_coverage (bs : List (String × List MItem)) :
    ∀ st : MergeSt, ((bs.map Prod.fst : List String)).Nodup →
      ∀ b ∈ bs, ∃ gd, lookupA (foldBuckets st bs).groups b.1 = some gd ∧
        bucketCovered gd b.2 := by
  induction bs with
  | nil => intro st _ b hb; cases hb
  | cons b0 rest ih =>
      intro st hnd b hb
      have hnodc := List.nodup_cons.mp hnd
      rcases List.mem_cons.mp hb with he | ht
      · subst he
        refine ⟨(processItems ((lookupA st.groups b.1).getD emptyGD) (-1) b.2).1, ?_, ?_⟩
        · exact (foldBuckets_lookup_of_not_mem rest (processBucket st b.1 b.2) b.1
            hnodc.1).trans (processBucket_lookup_self st b.1 b.2)
        · intro it hit
          obtain ⟨us, hus, hsub⟩ := processItems_covers b.2
            ((lookupA st.groups b.1).getD emptyGD) (-1) it hit
          unfold urlsGd at hus
          cases hq : lookupA
              (processItems ((lookupA st.groups b.1).getD emptyGD) (-1) b.2).1.channels
              it.1.1 with
          | none =>
              rw [hq] at hus
              cases hus
          | some e =>
              rw [hq] at hus
              have heq : e.urls = us := by
                injection hus
              exact ⟨e, rfl, fun u hu => heq ▸ hsub u hu⟩
      · exact ih (processBucket st b0.1 b0.2) hnodc.2 b ht

theorem foldBuckets_pass2 (bs : List (String × List MItem)) :
    ∀ st : MergeSt, ((bs.map Prod.fst : List String)).Nodup →
      (∀ b ∈ bs, ∃ gd, lookupA st.groups b.1 = some gd ∧ bucketCovered gd b.2) →
      ∀ g n, urlsSt (foldBuckets st bs) g n = urlsSt st g n := by
  induction bs with
  | nil => intro st _ _ g n; rfl
  | cons b0 rest ih =>
      intro st hnd hcov g n
      obtain ⟨gd, hgd, hbc⟩ := hcov b0 (List.mem_cons_self b0 rest)
      have hnodc := List.nodup_cons.mp hnd
      have hstep : ∀ g' n', urlsSt (processBucket st b0.1 b0.2) g' n' = urlsSt st g' n' := by
        intro g' n'
        unfold urlsSt
        by_cases hgg : g' = b0.1
        · subst hgg
          simp only [processBucket, hgd]
          rw [lookupA_updateA_self _ _ _ (by simp [hgd])]
          exact processItems_pass2 b0.2 gd (-1) hbc n'
        · rw [processBucket_lookup_ne st b0.1 b0.2 g' hgg]
      have hcov' : ∀ b ∈ rest, ∃ gd', lookupA (processBucket st b0.1 b0.2).groups b.1
          = some gd' ∧ bucketCovered gd' b.2 := by
        intro b hb
        obtain ⟨gd', hgd', hbc'⟩ := hcov b (List.mem_cons_of_mem b0 hb)
        have hne : b.1 ≠ b0.1 := by
          intro he
          exact hnodc.1 (he ▸ List.mem_map_of_mem Prod.fst hb)
        exact ⟨gd', (processBucket_lookup_ne st b0.1 b0.2 b.1 hne).trans hgd', hbc'⟩
      exact (ih (processBucket st b0.1 b0.2) hnodc.2 hcov' g n).trans (hstep g n)

/-- Claim C9: merging the same document into the global state twice yields,
for every group and entry, a resource list identical to the one produced by
merging it once (the second pass only re-unions resource sets that are
already contained, so even the literal url list is unchanged; info and config
fields may be rewritten but resources are not).  Holds for every starting
state, every document, every group label and every entry name. -/
theorem c9_resource_dedup_idempotent (st : MergeSt) (doc : List MItem) (g n : String) :
    urlsSt (mergeDoc (mergeDoc st doc) doc) g n = urlsSt (mergeDoc st doc) g n := by
  unfold mergeDoc
  exact foldBuckets_pass2 (buildBuckets doc) (foldBuckets st (buildBuckets doc))
    (buildBuckets_keys_nodup doc)
    (fun b hb => foldBuckets_coverage (buildBuckets doc) st (buildBuckets_keys_nodup doc) b hb)
    g n

/-- Witness for C4: with rename parameters set (new name "New") and a URL
keyword list `["hd"]` present, the single channel's two resources are
emitted after its (renamed) metadata line in their original parsed order —
no reordering, although the keyword would have moved `http://b/hd` first
under sorting. -/
theorem c4_rename_mode_preserves_resource_order_witness :
    ∃ body, (["#EXTM3U", "#EXTINF:-1,New", "http://b/hd", "http://a"] : List String) =
        ["#EXTM3U"] ++ body ∧
      urlsInOrder [⟨"#EXTINF:-1,Ch", ["http://b/hd", "http://a"], none, none⟩] body :=
  c4_rename_mode_preserves_resource_order
    ⟨["hd"], false, some ["Ch"], some "New", none, none, false⟩
    ["#EXTM3U"] [⟨"#EXTINF:-1,Ch", ["http://b/hd", "http://a"], none, none⟩]
    ["#EXTM3U", "#EXTINF:-1,New", "http://b/hd", "http://a"] (by rfl) (by rfl)

end IptvSpec
